import Mathlib

/-!
Verification of the layer-registry helper library (`useLayers` and friends).

The embedding models the source factory function and its methods as pure
Lean functions over a `Registry` structure.  JavaScript objects used as
ordered string maps are modelled as association lists with JS assignment
semantics (`jsInsertG`).  Operations that can throw (`assertLayerKey`)
are modelled in the `Except String` monad, the error value being the
thrown message.  The path-joining dependency (`join` from the pathe
package, posix semantics identical to the Node `path.posix` module) is
modelled faithfully at the character-list level: `joinL` concatenates the
non-empty arguments with slashes and normalizes the result with the
standard segment-stack algorithm, preserving a trailing separator, exactly
as `pathe`/Node do.  Windows drive letters and backslash conversion are
out of scope (posix paths only), and the redundant pre-collapsing of
repeated slashes done by pathe before normalizing is dropped because the
normalization pass already ignores empty segments.
-/

namespace NuxtLayers

/-! ## Path model: posix join / normalize -/

/-- Splits a character list on a separator character, keeping empty pieces,
mirroring the JS `String.prototype.split` with a single-character separator. -/
def splitChar (sep : Char) : List Char → List (List Char)
  | [] => [[]]
  | c :: rest =>
    let r := splitChar sep rest
    if c = sep then [] :: r
    else (c :: r.headI) :: r.tail

/-- Path segments of a character list (split on the slash). -/
def splitSegs (l : List Char) : List (List Char) := splitChar '/' l

/-- One step of the segment-stack normalization algorithm used by Node
`normalizeString`: empty and dot segments are skipped, a dot-dot segment
pops a name (or is kept when the stack is empty and climbing above the
root is allowed), any other segment is pushed. -/
def step (allow : Bool) (st : List (List Char)) (seg : List Char) : List (List Char) :=
  if seg = [] ∨ seg = ['.'] then st
  else if seg = ['.', '.'] then
    match st with
    | [] => if allow then [seg] else []
    | t :: rest => if t = ['.', '.'] then seg :: (t :: rest) else rest
  else seg :: st

/-- Runs the normalization stack over a list of segments. -/
def runStack (allow : Bool) (st : List (List Char)) (segs : List (List Char)) :
    List (List Char) :=
  segs.foldl (step allow) st

/-- Normal form of a segment list: the final stack, in path order. -/
def nf (allow : Bool) (segs : List (List Char)) : List (List Char) :=
  (runStack allow [] segs).reverse

/-- Joins segments with slashes (no leading or trailing separator). -/
def joinSegs : List (List Char) → List Char
  | [] => []
  | [s] => s
  | s :: s' :: rest => s ++ '/' :: joinSegs (s' :: rest)

/-- Tests whether a character list starts with a slash (an absolute path). -/
def isAbsL (l : List Char) : Bool := l.head? == some '/'

/-- Tests whether a character list ends with a slash (a trailing separator). -/
def lastIsSlash (l : List Char) : Bool := l.reverse.head? == some '/'

/-- Reassembles a normalized body with the absolute-prefix and
trailing-separator decorations, mirroring the tail of Node `normalize`. -/
def dress (ab tr : Bool) (body : List Char) : List Char :=
  if body = [] then
    if ab then ['/'] else if tr then ['.', '/'] else ['.']
  else
    (if ab then '/' :: body else body) ++ (if tr then ['/'] else [])

/-- Node / pathe posix `normalize` on character lists: resolves dot and
dot-dot segments, collapses repeated separators, keeps a trailing
separator, returns a dot for an empty result. -/
def normalizeL (p : List Char) : List Char :=
  if p = [] then ['.']
  else dress (isAbsL p) (lastIsSlash p) (joinSegs (nf (!isAbsL p) (splitSegs p)))

/-- Node / pathe posix `normalize` on strings. -/
def normalize (s : String) : String := ⟨normalizeL s.data⟩

/-- Node / pathe posix `join`: drops empty arguments, concatenates the rest
with slashes and normalizes; returns a dot when nothing remains. -/
def joinL (args : List String) : String :=
  match (args.map String.data).filter (fun a => a ≠ []) with
  | [] => "."
  | parts => ⟨normalizeL (joinSegs parts)⟩

/-! ## JS object model -/

/-- Association list modelling a JS object used as an ordered map. -/
abbrev JsObj (β : Type) := List (String × β)

/-- The layer mapping: JS object from layer key to relative path. -/
abbrev Layers := JsObj String

/-- JS `Object.keys`: the keys in insertion order. -/
def jsKeysG {β : Type} (m : JsObj β) : List String := m.map Prod.fst

/-- JS property read `m[k]`: the value at the key, when present. -/
def jsGet {β : Type} (m : JsObj β) (k : String) : Option β :=
  (m.find? (fun p => p.1 == k)).map Prod.snd

/-- JS property read `m[k]` coerced to a string by a template literal:
a missing key reads as undefined, which stringifies to "undefined". -/
def jsGetD (m : Layers) (k : String) : String := (jsGet m k).getD "undefined"

/-- JS property assignment `m[k] = v`: updates the value in place when the
key exists (keeping its position), otherwise appends the new entry. -/
def jsInsertG {β : Type} (m : JsObj β) (k : String) (v : β) : JsObj β :=
  if (jsKeysG m).contains k then
    m.map (fun p => if p.1 = k then (p.1, v) else p)
  else m ++ [(k, v)]

/-! ## The registry -/

/-- Whitespace trimming as done by JS `String.prototype.trim`
(ASCII whitespace model). -/
def jsTrim (l : List Char) : List Char :=
  ((l.dropWhile Char.isWhitespace).reverse.dropWhile Char.isWhitespace).reverse

/-- Collapses every maximal whitespace run into a single space. -/
def collapseWs : List Char → List Char
  | [] => []
  | [c] => [if c.isWhitespace then ' ' else c]
  | c :: d :: rest =>
    if c.isWhitespace && d.isWhitespace then collapseWs (d :: rest)
    else (if c.isWhitespace then ' ' else c) :: collapseWs (d :: rest)

/-- JS `s.split(/\s+/)` : splitting on maximal whitespace runs; splitting
the empty string yields one empty piece. -/
def jsSplitWs (l : List Char) : List (List Char) := splitChar ' ' (collapseWs l)

/-- Argument of `only` and `getKeys`: a space-delimited string of layer
keys, or an array of layer keys. -/
inductive Filter where
  | str (s : String)
  | list (l : List String)

/-- Source helper `getKeys`: an array filter is returned as is, a string
filter is trimmed and split on whitespace runs. -/
def getKeys : Filter → List String
  | .str s => (jsSplitWs (jsTrim s.data)).map (fun l => ⟨l⟩)
  | .list l => l

/-- The default auto-import folder list `AUTO_IMPORTS` of the source. -/
def AUTO_IMPORTS : List String := ["components", "composables", "utils"]

/-- The state captured by the `useLayers` factory: the base directory and
the layer mapping, both fixed at construction. -/
structure Registry where
  baseDir : String
  layers : Layers
deriving DecidableEq

/-- The factory function `useLayers` itself. -/
def useLayers (baseDir : String) (layers : Layers) : Registry := ⟨baseDir, layers⟩

/-- The message of the error thrown for an invalid layer key. -/
def errMsg (k : String) : String := "Invalid layer \"" ++ k ++ "\""

/-- Source guard `assertLayerKey`: throws when the key is absent from the
mapping. -/
def assertLayerKey (layers : Layers) (k : String) : Except String Unit :=
  if (jsKeysG layers).contains k then Except.ok ()
  else Except.error (errMsg k)

/-- Source method `rel`: the relative path for a layer, or one of its
folders (the folder argument defaults to the empty string). -/
def Registry.rel (r : Registry) (key : String) (folder : String := "") :
    Except String String := do
  let _ ← assertLayerKey r.layers key
  pure (joinL [jsGetD r.layers key, folder])

/-- Source method `abs`: the absolute path for a layer, or one of its
folders. -/
def Registry.abs (r : Registry) (key : String) (folder : String := "") :
    Except String String := do
  let _ ← assertLayerKey r.layers key
  pure (joinL [r.baseDir, jsGetD r.layers key, folder])

/-- Source method `dir`: folder names mapped to their relative paths for a
single layer. -/
def Registry.dir (r : Registry) (key : String) (folders : List String) :
    Except String (JsObj String) := do
  let _ ← assertLayerKey r.layers key
  folders.foldlM (fun out folder => do
    let p ← r.rel key folder
    pure (jsInsertG out folder p)) []

/-- Source method `dirPath`: a single relative folder path; an absent
folder argument reaches the default of `rel`. -/
def Registry.dirPath (r : Registry) (key : String) (folder : Option String := none) :
    Except String String := do
  let _ ← assertLayerKey r.layers key
  r.rel key (folder.getD "")

/-- Source method `extends`, renamed because `extends` is reserved in
Lean: the mapping values in insertion order. -/
def Registry.extendsList (r : Registry) : List String := r.layers.map Prod.snd

/-- Loop body of source utility `obj`: iterates the keys with a running
index, assigning `output[key] = callback(key, layers[key], abs(key), index)`. -/
def Registry.objAux {β : Type} (r : Registry)
    (cb : String → String → String → Nat → β) :
    List String → Nat → JsObj β → Except String (JsObj β)
  | [], _, out => Except.ok out
  | k :: ks, i, out => do
    let a ← r.abs k
    Registry.objAux r cb ks (i + 1) (jsInsertG out k (cb k (jsGetD r.layers k) a i))

/-- Source utility `obj`: a hash of config options from a callback. -/
def Registry.obj {β : Type} (r : Registry)
    (cb : String → String → String → Nat → β) : Except String (JsObj β) :=
  r.objAux cb (jsKeysG r.layers) 0 []

/-- Source utility `arr`: an array of config options from a callback over
the entries with their index. -/
def Registry.arrAux {β : Type} (r : Registry)
    (cb : String → String → String → Nat → β) :
    List (String × String) → Nat → Except String (List β)
  | [], _ => Except.ok []
  | (k, v) :: rest, i => do
    let a ← r.abs k
    let x := cb k v a i
    let xs ← r.arrAux cb rest (i + 1)
    pure (x :: xs)

/-- Source utility `arr` applied to all entries. -/
def Registry.arr {β : Type} (r : Registry)
    (cb : String → String → String → Nat → β) : Except String (List β) :=
  r.arrAux cb r.layers 0

/-- Source method `importsDirs`: for every layer the requested folders
joined onto the relative path, flattened. -/
def Registry.importsDirs (r : Registry) (folders : List String := AUTO_IMPORTS) :
    Except String (List String) := do
  let xss ← r.arr (fun _ rel _ _ => folders.map (fun folder => joinL [rel, folder]))
  pure xss.flatten

/-- The prefixing option of `contentSources`: the string auto, a mapping
object, or a boolean. -/
inductive ContentPrefix where
  | auto
  | obj (m : Layers)
  | bool (b : Bool)
deriving DecidableEq

/-- One generated content source entry; a `none` pfx models the absence of
the prefix field in the JS object literal (source field name: prefix). -/
structure ContentSource where
  pfx : Option String
  base : String
  driver : String
deriving DecidableEq

/-- Source method `contentSources`: per layer, a prefixing decision from
the option and the index, a base at the content folder of the layer, and
the fs driver. -/
def Registry.contentSources (r : Registry) (pfx : ContentPrefix := .auto) :
    Except String (JsObj ContentSource) :=
  r.obj (fun key _ a index =>
    let prefixed : Option String :=
      if (pfx = .auto ∧ index = 0) ∨ pfx = .bool false then none
      else
        match pfx with
        | .obj m => some ("/" ++ jsGetD m key)
        | _ => some ("/" ++ key)
    { pfx := prefixed, base := joinL [a, "content"], driver := "fs" })

/-- The folders argument of `alias`: the literal true (use the default
auto-import set) or an explicit folder array. -/
inductive AliasFolders where
  | star
  | names (l : List String)

/-- Source method `alias`: without folders, one entry per layer mapping
the prefixed key to the absolute layer path; with folders, entries for the
first layer only, mapping each prefixed folder to its absolute path (an
empty mapping, or a falsy first key, yields an empty result). -/
def Registry.alias (r : Registry) (pfx : String := "#")
    (folders : Option AliasFolders := none) : Except String Layers :=
  match folders with
  | some fsArg =>
    match jsKeysG r.layers with
    | [] => Except.ok []
    | k0 :: _ =>
      if k0 = "" then Except.ok []
      else
        (match fsArg with
          | .star => AUTO_IMPORTS
          | .names l => l).foldlM
          (fun out folder => do
            let a ← r.abs k0 folder
            pure (jsInsertG out (pfx ++ folder) a)) []
  | none =>
    (jsKeysG r.layers).foldlM (fun out k => do
      let a ← r.abs k
      pure (jsInsertG out (pfx ++ k) a)) []

/-- Source method `only`: validates every filtered key, then builds a new
mapping holding the filtered keys in filter order, and returns a new
registry over the same base directory. -/
def Registry.only (r : Registry) (filter : Filter) : Except String Registry := do
  let keys := getKeys filter
  let _ ← keys.forM (assertLayerKey r.layers)
  let filtered := keys.foldl (fun m k => jsInsertG m k (jsGetD r.layers k)) []
  pure ⟨r.baseDir, filtered⟩

/-- Source helper `logConfig`: prints a deep inspection of the value and
returns it unchanged; the console output is I/O outside the functional
model, so the embedding keeps only the returned value. -/
def logConfig {α : Type} (config : α) : α := config

/-- Entries ever held by the normalization stack: non-empty and not a dot. -/
def SegOK (s : List Char) : Prop := s ≠ [] ∧ s ≠ ['.']

/-- Pairs each element with its position, starting from a given index;
used to state iteration-order properties of the indexed callbacks. -/
def idxFrom {α : Type} (n : Nat) : List α → List (Nat × α)
  | [] => []
  | x :: xs => (n, x) :: idxFrom (n + 1) xs

/-! ## Basic facts about splitting and joining segments -/

theorem splitChar_ne_nil (sep : Char) (l : List Char) : splitChar sep l ≠ [] := by
  cases l with
  | nil => simp [splitChar]
  | cons c rest =>
    simp only [splitChar]
    split <;> simp

theorem splitChar_cons_self (sep : Char) (rest : List Char) :
    splitChar sep (sep :: rest) = [] :: splitChar sep rest := by
  simp [splitChar]

theorem splitChar_cons_ne (sep c : Char) (rest : List Char) (h : c ≠ sep) :
    splitChar sep (c :: rest) =
      (c :: (splitChar sep rest).headI) :: (splitChar sep rest).tail := by
  simp [splitChar, if_neg h]

theorem splitChar_append (sep : Char) (a b : List Char) :
    splitChar sep (a ++ sep :: b) = splitChar sep a ++ splitChar sep b := by
  induction a with
  | nil => simp [splitChar]
  | cons c a ih =>
    by_cases h : c = sep
    · subst h
      rw [List.cons_append, splitChar_cons_self, splitChar_cons_self, ih]
      rfl
    · have hne := splitChar_ne_nil sep a
      cases hsa : splitChar sep a with
      | nil => exact absurd hsa hne
      | cons s ss =>
        rw [List.cons_append, splitChar_cons_ne sep c _ h, splitChar_cons_ne sep c _ h,
          ih, hsa]
        simp

theorem not_mem_of_mem_splitChar {sep : Char} :
    ∀ {l s : List Char}, s ∈ splitChar sep l → sep ∉ s := by
  intro l
  induction l with
  | nil =>
    intro s hs
    simp [splitChar] at hs
    subst hs; simp
  | cons c rest ih =>
    intro s hs
    simp only [splitChar] at hs
    by_cases h : c = sep
    · rw [if_pos h] at hs
      rcases List.mem_cons.mp hs with hs | hs
      · subst hs; simp
      · exact ih hs
    · rw [if_neg h] at hs
      have hne := splitChar_ne_nil sep rest
      cases hr : splitChar sep rest with
      | nil => exact absurd hr hne
      | cons t ts =>
        rw [hr] at hs
        rcases List.mem_cons.mp hs with hs | hs
        · subst hs
          intro hmem
          rcases List.mem_cons.mp hmem with hmem | hmem
          · exact h hmem.symm
          · exact ih (by rw [hr]; exact List.mem_cons_self t ts) hmem
        · exact ih (by rw [hr]; exact List.mem_cons_of_mem t hs)

theorem splitChar_of_not_mem {sep : Char} {s : List Char} (h : sep ∉ s) :
    splitChar sep s = [s] := by
  induction s with
  | nil => rfl
  | cons c rest ih =>
    simp only [List.mem_cons, not_or] at h
    simp [splitChar, ih h.2, if_neg (Ne.symm h.1)]

theorem joinSegs_ne_nil {xs : List (List Char)} (hxs : xs ≠ [])
    (h : ∀ s ∈ xs, s ≠ []) : joinSegs xs ≠ [] := by
  cases xs with
  | nil => exact absurd rfl hxs
  | cons s rest =>
    cases rest with
    | nil => exact h s (by simp)
    | cons s' r =>
      show s ++ '/' :: joinSegs (s' :: r) ≠ []
      intro he
      exact List.cons_ne_nil _ _ (List.append_eq_nil.mp he).2

theorem splitSegs_joinSegs {xs : List (List Char)} (hxs : xs ≠ [])
    (h : ∀ s ∈ xs, s ≠ [] ∧ '/' ∉ s) : splitSegs (joinSegs xs) = xs := by
  induction xs with
  | nil => exact absurd rfl hxs
  | cons s rest ih =>
    cases rest with
    | nil =>
      show splitChar '/' (joinSegs [s]) = [s]
      simp only [joinSegs]
      exact splitChar_of_not_mem (h s (by simp)).2
    | cons s' r =>
      show splitChar '/' (joinSegs (s :: s' :: r)) = s :: s' :: r
      simp only [joinSegs]
      rw [splitChar_append]
      rw [splitChar_of_not_mem (h s (by simp)).2]
      have := ih (by simp) (fun t ht => h t (List.mem_cons_of_mem s ht))
      simp only [splitSegs] at this
      rw [this]
      rfl

theorem head?_append_left {α : Type} {x : List α} (y : List α) (h : x ≠ []) :
    (x ++ y).head? = x.head? := by
  cases x with
  | nil => exact absurd rfl h
  | cons c r => rfl

theorem isAbsL_append (a x : List Char) (h : a ≠ []) :
    isAbsL (a ++ x) = isAbsL a := by
  unfold isAbsL
  rw [head?_append_left x h]

theorem lastIsSlash_append (x y : List Char) (h : y ≠ []) :
    lastIsSlash (x ++ y) = lastIsSlash y := by
  unfold lastIsSlash
  rw [List.reverse_append, head?_append_left _ (by simpa using h)]

theorem head?_ne_slash {s : List Char} (h : '/' ∉ s) : (s.head? == some '/') = false := by
  cases s with
  | nil => rfl
  | cons c cs =>
    have : c ≠ '/' := fun e => h (e ▸ List.mem_cons_self c cs)
    simpa using this

theorem isAbsL_joinSegs {xs : List (List Char)}
    (h : ∀ s ∈ xs, s ≠ [] ∧ '/' ∉ s) : isAbsL (joinSegs xs) = false := by
  cases xs with
  | nil => rfl
  | cons s rest =>
    have hs := h s (by simp)
    have hhead : (joinSegs (s :: rest)).head? = s.head? := by
      cases rest with
      | nil => rfl
      | cons s' r =>
        show (s ++ '/' :: joinSegs (s' :: r)).head? = s.head?
        exact head?_append_left _ hs.1
    unfold isAbsL
    rw [hhead]
    exact head?_ne_slash hs.2

theorem lastIsSlash_joinSegs {xs : List (List Char)}
    (h : ∀ s ∈ xs, s ≠ [] ∧ '/' ∉ s) : lastIsSlash (joinSegs xs) = false := by
  induction xs with
  | nil => rfl
  | cons s rest ih =>
    cases rest with
    | nil =>
      have hs := h s (by simp)
      show lastIsSlash s = false
      unfold lastIsSlash
      refine head?_ne_slash ?_
      simpa using hs.2
    | cons s' r =>
      have hrest : joinSegs (s' :: r) ≠ [] :=
        joinSegs_ne_nil (by simp) (fun t ht => (h t (List.mem_cons_of_mem s ht)).1)
      show lastIsSlash (s ++ '/' :: joinSegs (s' :: r)) = false
      rw [show ('/' :: joinSegs (s' :: r)) = ['/'] ++ joinSegs (s' :: r) from rfl,
        ← List.append_assoc, lastIsSlash_append _ _ hrest]
      exact ih (fun t ht => h t (List.mem_cons_of_mem s ht))

/-! ## The normalization stack: invariants and the replay lemma -/

theorem step_skip {allow : Bool} {st : List (List Char)} {seg : List Char}
    (h : seg = [] ∨ seg = ['.']) : step allow st seg = st := by
  unfold step
  rw [if_pos h]

theorem step_push {allow : Bool} {st : List (List Char)} {seg : List Char}
    (h1 : ¬(seg = [] ∨ seg = ['.'])) (h2 : seg ≠ ['.', '.']) :
    step allow st seg = seg :: st := by
  unfold step
  rw [if_neg h1, if_neg h2]

theorem step_dd_nil {allow : Bool} :
    step allow [] ['.', '.'] = if allow then [['.', '.']] else [] := by
  simp [step]

theorem step_dd_keep {allow : Bool} {rest : List (List Char)} :
    step allow (['.', '.'] :: rest) ['.', '.'] = ['.', '.'] :: ['.', '.'] :: rest := by
  simp [step]

theorem step_dd_pop {allow : Bool} {t : List Char} {rest : List (List Char)}
    (ht : t ≠ ['.', '.']) : step allow (t :: rest) ['.', '.'] = rest := by
  simp [step, ht]

theorem runStack_nil (allow : Bool) (st : List (List Char)) :
    runStack allow st [] = st := rfl

theorem runStack_cons (allow : Bool) (st : List (List Char)) (x : List Char)
    (xs : List (List Char)) :
    runStack allow st (x :: xs) = runStack allow (step allow st x) xs := rfl

theorem runStack_append (allow : Bool) (st : List (List Char))
    (xs ys : List (List Char)) :
    runStack allow st (xs ++ ys) = runStack allow (runStack allow st xs) ys := by
  unfold runStack
  exact List.foldl_append _ _ _ _

theorem runStack_singleton (allow : Bool) (st : List (List Char)) (x : List Char) :
    runStack allow st [x] = step allow st x := rfl

theorem step_SegOK {allow : Bool} {st : List (List Char)} {seg : List Char}
    (h : ∀ t ∈ st, SegOK t) : ∀ t ∈ step allow st seg, SegOK t := by
  by_cases h1 : seg = [] ∨ seg = ['.']
  · rw [step_skip h1]; exact h
  · by_cases h2 : seg = ['.', '.']
    · subst h2
      cases st with
      | nil =>
        rw [step_dd_nil]
        cases allow <;> intro t ht <;> simp at ht
        subst ht
        exact ⟨by simp, by simp⟩
      | cons u rest =>
        by_cases hu : u = ['.', '.']
        · subst hu
          rw [step_dd_keep]
          intro t ht
          rcases List.mem_cons.mp ht with rfl | ht
          · exact ⟨by simp, by simp⟩
          · exact h t ht
        · rw [step_dd_pop hu]
          exact fun t ht => h t (List.mem_cons_of_mem u ht)
    · rw [step_push h1 h2]
      intro t ht
      rcases List.mem_cons.mp ht with rfl | ht
      · push_neg at h1
        exact ⟨h1.1, h1.2⟩
      · exact h t ht

theorem runStack_SegOK {allow : Bool} :
    ∀ (xs : List (List Char)) (st : List (List Char)),
      (∀ t ∈ st, SegOK t) → ∀ t ∈ runStack allow st xs, SegOK t := by
  intro xs
  induction xs with
  | nil => intro st h; exact h
  | cons x xs ih =>
    intro st h
    rw [runStack_cons]
    exact ih _ (step_SegOK h)

theorem step_noSlash {allow : Bool} {st : List (List Char)} {seg : List Char}
    (h : ∀ t ∈ st, '/' ∉ t) (hseg : '/' ∉ seg) : ∀ t ∈ step allow st seg, '/' ∉ t := by
  by_cases h1 : seg = [] ∨ seg = ['.']
  · rw [step_skip h1]; exact h
  · by_cases h2 : seg = ['.', '.']
    · subst h2
      cases st with
      | nil =>
        rw [step_dd_nil]
        cases allow <;> intro t ht <;> simp at ht
        subst ht
        simp
      | cons u rest =>
        by_cases hu : u = ['.', '.']
        · subst hu
          rw [step_dd_keep]
          intro t ht
          rcases List.mem_cons.mp ht with rfl | ht
          · simp
          · exact h t ht
        · rw [step_dd_pop hu]
          exact fun t ht => h t (List.mem_cons_of_mem u ht)
    · rw [step_push h1 h2]
      intro t ht
      rcases List.mem_cons.mp ht with rfl | ht
      · exact hseg
      · exact h t ht

theorem runStack_noSlash {allow : Bool} :
    ∀ (xs : List (List Char)) (st : List (List Char)),
      (∀ s ∈ xs, '/' ∉ s) → (∀ t ∈ st, '/' ∉ t) →
      ∀ t ∈ runStack allow st xs, '/' ∉ t := by
  intro xs
  induction xs with
  | nil => intro st _ h; exact h
  | cons x xs ih =>
    intro st hxs h
    rw [runStack_cons]
    exact ih _ (fun s hs => hxs s (List.mem_cons_of_mem x hs))
      (step_noSlash h (hxs x (List.mem_cons_self x xs)))

/-- Elements of a normal form are non-empty, not a dot, and slash-free. -/
theorem nf_elem_ok {allow : Bool} {xs : List (List Char)}
    (hxs : ∀ s ∈ xs, '/' ∉ s) :
    ∀ t ∈ nf allow xs, t ≠ [] ∧ '/' ∉ t := by
  intro t ht
  rw [nf, List.mem_reverse] at ht
  have h1 := runStack_SegOK xs [] (by simp) t ht
  have h2 := runStack_noSlash xs [] hxs (by simp) t ht
  exact ⟨h1.1, h2⟩

/-- The replay lemma: running the normal form of a segment sequence over a
stack has the same effect as running the sequence itself.  The inner
normalization flag must allow climbing above the root, except when both
runs forbid it and the outer run starts from the empty stack. -/
theorem replay (allowI allowO : Bool) (st : List (List Char))
    (h : allowI = true ∨ (allowO = false ∧ st = [])) (xs : List (List Char)) :
    runStack allowO st (runStack allowI [] xs).reverse = runStack allowO st xs := by
  induction xs using List.reverseRecOn with
  | nil => simp [runStack]
  | append_singleton xs x ih =>
    have hS : ∀ t ∈ runStack allowI [] xs, SegOK t :=
      runStack_SegOK xs [] (by simp)
    have hrunI : runStack allowI [] (xs ++ [x]) =
        step allowI (runStack allowI [] xs) x := by
      rw [runStack_append, runStack_singleton]
    have hrunO : runStack allowO st (xs ++ [x]) =
        step allowO (runStack allowO st (runStack allowI [] xs).reverse) x := by
      rw [runStack_append, runStack_singleton, ih]
    rw [hrunI, hrunO]
    by_cases hskip : x = [] ∨ x = ['.']
    · rw [step_skip hskip, step_skip hskip]
    · by_cases hdd : x = ['.', '.']
      · subst hdd
        cases hS' : runStack allowI [] xs with
        | nil =>
          by_cases hI : allowI = true
          · rw [hI, step_dd_nil]
            simp [runStack_singleton, runStack_nil]
          · have hI' : allowI = false := by revert hI; cases allowI <;> simp
            rcases h with h | ⟨hO, hst⟩
            · exact absurd h hI
            · subst hO; subst hst
              rw [hI', step_dd_nil]
              simp [runStack_nil, runStack_singleton, step_dd_nil]
        | cons t rest =>
          by_cases ht : t = ['.', '.']
          · subst ht
            rw [step_dd_keep]
            rw [show (['.', '.'] :: ['.', '.'] :: rest).reverse =
                (['.', '.'] :: rest).reverse ++ [['.', '.']] from by simp]
            rw [runStack_append, runStack_singleton]
          · rw [step_dd_pop ht]
            have htOK : SegOK t := hS t (by rw [hS']; exact List.mem_cons_self t rest)
            rw [show (t :: rest).reverse = rest.reverse ++ [t] from by simp]
            rw [runStack_append, runStack_singleton]
            rw [step_push (by push_neg; exact ⟨htOK.1, htOK.2⟩) ht]
            rw [step_dd_pop ht]
      · rw [step_push hskip hdd, step_push hskip hdd]
        rw [show (x :: runStack allowI [] xs).reverse =
            (runStack allowI [] xs).reverse ++ [x] from by simp]
        rw [runStack_append, runStack_singleton, step_push hskip hdd]

/-! ## Structure of normalize and the composition lemmas -/

theorem normalizeL_eq {p : List Char} (hp : p ≠ []) :
    normalizeL p =
      dress (isAbsL p) (lastIsSlash p) (joinSegs (nf (!isAbsL p) (splitSegs p))) := by
  unfold normalizeL
  rw [if_neg hp]

theorem dress_ne_nil (ab tr : Bool) (body : List Char) : dress ab tr body ≠ [] := by
  unfold dress
  split_ifs with h1 h2 h3 <;> simp [h1]

theorem nf_splitSegs_ok {allow : Bool} {p : List Char} :
    ∀ t ∈ nf allow (splitSegs p), t ≠ [] ∧ '/' ∉ t :=
  nf_elem_ok (fun _ hs => not_mem_of_mem_splitChar hs)

theorem isAbsL_dress (ab tr : Bool) (xs : List (List Char))
    (h : ∀ s ∈ xs, s ≠ [] ∧ '/' ∉ s) :
    isAbsL (dress ab tr (joinSegs xs)) = ab := by
  by_cases hb : joinSegs xs = []
  · unfold dress
    rw [if_pos hb]
    cases ab
    · cases tr <;> rfl
    · rfl
  · unfold dress
    rw [if_neg hb]
    cases ab
    · cases tr
      · show isAbsL (joinSegs xs ++ []) = false
        rw [isAbsL_append _ _ hb]
        exact isAbsL_joinSegs h
      · show isAbsL (joinSegs xs ++ ['/']) = false
        rw [isAbsL_append _ _ hb]
        exact isAbsL_joinSegs h
    · cases tr
      · show isAbsL (('/' :: joinSegs xs) ++ []) = true
        rfl
      · show isAbsL (('/' :: joinSegs xs) ++ ['/']) = true
        rfl

theorem lastIsSlash_dress (ab tr : Bool) (xs : List (List Char))
    (h : ∀ s ∈ xs, s ≠ [] ∧ '/' ∉ s) (hb : joinSegs xs ≠ []) :
    lastIsSlash (dress ab tr (joinSegs xs)) = tr := by
  unfold dress
  rw [if_neg hb]
  cases ab
  · cases tr
    · show lastIsSlash (joinSegs xs ++ []) = false
      rw [List.append_nil]
      exact lastIsSlash_joinSegs h
    · show lastIsSlash (joinSegs xs ++ ['/']) = true
      rw [lastIsSlash_append _ _ (by simp : (['/'] : List Char) ≠ [])]
      rfl
  · cases tr
    · show lastIsSlash (('/' :: joinSegs xs) ++ []) = false
      rw [List.append_nil]
      rw [show ('/' :: joinSegs xs : List Char) = ['/'] ++ joinSegs xs from rfl,
        lastIsSlash_append _ _ hb]
      exact lastIsSlash_joinSegs h
    · show lastIsSlash (('/' :: joinSegs xs) ++ ['/']) = true
      rw [lastIsSlash_append _ _ (by simp : (['/'] : List Char) ≠ [])]
      rfl

theorem lastIsSlash_dress_nil_rel (tr : Bool) :
    lastIsSlash (dress false tr []) = tr := by
  cases tr <;> rfl

theorem isAbsL_normalizeL {v : List Char} (hv : v ≠ []) :
    isAbsL (normalizeL v) = isAbsL v := by
  rw [normalizeL_eq hv]
  exact isAbsL_dress _ _ _ nf_splitSegs_ok

theorem lastIsSlash_normalizeL {v : List Char} (hv : v ≠ [])
    (hrel : isAbsL v = false) : lastIsSlash (normalizeL v) = lastIsSlash v := by
  rw [normalizeL_eq hv, hrel]
  by_cases hb : joinSegs (nf (!false) (splitSegs v)) = []
  · rw [hb]
    exact lastIsSlash_dress_nil_rel _
  · exact lastIsSlash_dress _ _ _ nf_splitSegs_ok hb

/-- Replaying the split of a dressed body is replaying its segments: the
decorations contribute only empty or dot segments, which the stack skips. -/
theorem runStack_splitSegs_dress (allow : Bool) (st : List (List Char))
    (ab tr : Bool) (xs : List (List Char)) (h : ∀ s ∈ xs, s ≠ [] ∧ '/' ∉ s) :
    runStack allow st (splitSegs (dress ab tr (joinSegs xs))) =
      runStack allow st xs := by
  by_cases hxs : xs = []
  · subst hxs
    show runStack allow st (splitSegs (dress ab tr [])) = st
    cases ab
    · cases tr
      · show runStack allow st [['.']] = st
        rw [runStack_singleton, step_skip (Or.inr rfl)]
      · show runStack allow st [['.'], []] = st
        rw [runStack_cons, step_skip (Or.inr rfl), runStack_singleton,
          step_skip (Or.inl rfl)]
    · show runStack allow st [[], []] = st
      rw [runStack_cons, step_skip (Or.inl rfl), runStack_singleton,
        step_skip (Or.inl rfl)]
  · have hbody : joinSegs xs ≠ [] := joinSegs_ne_nil hxs (fun s hs => (h s hs).1)
    have hsplit : splitSegs (joinSegs xs) = xs := splitSegs_joinSegs hxs h
    have h1 : dress ab tr (joinSegs xs) =
        (if ab then '/' :: joinSegs xs else joinSegs xs) ++
          (if tr then ['/'] else []) := by
      unfold dress; rw [if_neg hbody]
    rw [h1]
    cases ab
    · cases tr
      · show runStack allow st (splitSegs (joinSegs xs ++ [])) = runStack allow st xs
        rw [List.append_nil, hsplit]
      · show runStack allow st (splitChar '/' (joinSegs xs ++ '/' :: [])) =
          runStack allow st xs
        rw [splitChar_append]
        rw [show splitChar '/' (joinSegs xs) = xs from hsplit]
        rw [show splitChar '/' ([] : List Char) = [[]] from rfl]
        rw [runStack_append, runStack_singleton, step_skip (Or.inl rfl)]
    · cases tr
      · show runStack allow st (splitChar '/' (('/' :: joinSegs xs) ++ [])) =
          runStack allow st xs
        rw [List.append_nil, splitChar_cons_self]
        rw [show splitChar '/' (joinSegs xs) = xs from hsplit]
        rw [runStack_cons, step_skip (Or.inl rfl)]
      · show runStack allow st (splitChar '/' (('/' :: joinSegs xs) ++ ['/'])) =
          runStack allow st xs
        rw [show ('/' :: joinSegs xs : List Char) ++ ['/'] =
          '/' :: (joinSegs xs ++ '/' :: []) from by simp]
        rw [splitChar_cons_self, splitChar_append]
        rw [show splitChar '/' (joinSegs xs) = xs from hsplit]
        rw [show splitChar '/' ([] : List Char) = [[]] from rfl]
        rw [runStack_cons, step_skip (Or.inl rfl), runStack_append,
          runStack_singleton, step_skip (Or.inl rfl)]

/-- Replaying the split of a normalized path is replaying the path itself,
under the flag conditions of the replay lemma. -/
theorem runStack_splitSegs_normalizeL {v : List Char} (hv : v ≠ [])
    (allowO : Bool) (st : List (List Char))
    (h : (!isAbsL v) = true ∨ (allowO = false ∧ st = [])) :
    runStack allowO st (splitSegs (normalizeL v)) =
      runStack allowO st (splitSegs v) := by
  rw [normalizeL_eq hv]
  rw [runStack_splitSegs_dress allowO st _ _ _ nf_splitSegs_ok]
  exact replay (!isAbsL v) allowO st h (splitSegs v)

theorem core_right (a v : List Char) (ha : a ≠ []) (hv : v ≠ [])
    (hrel : isAbsL v = false) :
    normalizeL (a ++ '/' :: normalizeL v) = normalizeL (a ++ '/' :: v) := by
  have hw : normalizeL v ≠ [] := by
    rw [normalizeL_eq hv]; exact dress_ne_nil _ _ _
  have hL : a ++ '/' :: normalizeL v ≠ [] := by simp
  have hR : a ++ '/' :: v ≠ [] := by simp
  rw [normalizeL_eq hL, normalizeL_eq hR]
  have habs : isAbsL (a ++ '/' :: normalizeL v) = isAbsL (a ++ '/' :: v) := by
    rw [isAbsL_append _ _ ha, isAbsL_append _ _ ha]
  have htr : lastIsSlash (a ++ '/' :: normalizeL v) = lastIsSlash (a ++ '/' :: v) := by
    rw [show ('/' :: normalizeL v : List Char) = ['/'] ++ normalizeL v from rfl,
      show ('/' :: v : List Char) = ['/'] ++ v from rfl]
    rw [← List.append_assoc, ← List.append_assoc]
    rw [lastIsSlash_append _ _ hw, lastIsSlash_append _ _ hv]
    exact lastIsSlash_normalizeL hv hrel
  have hstack : runStack (!isAbsL (a ++ '/' :: v)) []
      (splitSegs (a ++ '/' :: normalizeL v)) =
      runStack (!isAbsL (a ++ '/' :: v)) [] (splitSegs (a ++ '/' :: v)) := by
    show runStack (!isAbsL (a ++ '/' :: v)) []
      (splitChar '/' (a ++ '/' :: normalizeL v)) =
      runStack (!isAbsL (a ++ '/' :: v)) [] (splitChar '/' (a ++ '/' :: v))
    rw [splitChar_append, splitChar_append, runStack_append, runStack_append]
    exact runStack_splitSegs_normalizeL hv _ _ (Or.inl (by rw [hrel]; rfl))
  rw [habs, htr]
  rw [show nf (!isAbsL (a ++ '/' :: v)) (splitSegs (a ++ '/' :: normalizeL v)) =
      nf (!isAbsL (a ++ '/' :: v)) (splitSegs (a ++ '/' :: v)) from by
    unfold nf; rw [hstack]]

theorem core_left (u c : List Char) (hu : u ≠ []) :
    normalizeL (normalizeL u ++ '/' :: c) = normalizeL (u ++ '/' :: c) := by
  have hw : normalizeL u ≠ [] := by
    rw [normalizeL_eq hu]; exact dress_ne_nil _ _ _
  have hL : normalizeL u ++ '/' :: c ≠ [] := by simp
  have hR : u ++ '/' :: c ≠ [] := by simp
  rw [normalizeL_eq hL, normalizeL_eq hR]
  have habs : isAbsL (normalizeL u ++ '/' :: c) = isAbsL (u ++ '/' :: c) := by
    rw [isAbsL_append _ _ hw, isAbsL_append _ _ hu]
    exact isAbsL_normalizeL hu
  have htr : lastIsSlash (normalizeL u ++ '/' :: c) = lastIsSlash (u ++ '/' :: c) := by
    rw [lastIsSlash_append _ _ (List.cons_ne_nil '/' c),
      lastIsSlash_append _ _ (List.cons_ne_nil '/' c)]
  have hstack : runStack (!isAbsL (u ++ '/' :: c)) []
      (splitSegs (normalizeL u ++ '/' :: c)) =
      runStack (!isAbsL (u ++ '/' :: c)) [] (splitSegs (u ++ '/' :: c)) := by
    show runStack (!isAbsL (u ++ '/' :: c)) []
      (splitChar '/' (normalizeL u ++ '/' :: c)) =
      runStack (!isAbsL (u ++ '/' :: c)) [] (splitChar '/' (u ++ '/' :: c))
    rw [splitChar_append, splitChar_append, runStack_append, runStack_append]
    rw [isAbsL_append _ _ hu]
    refine congrArg (fun s => runStack (!isAbsL u) s (splitChar '/' c)) ?_
    refine runStack_splitSegs_normalizeL hu _ _ ?_
    cases hA : isAbsL u
    · exact Or.inl rfl
    · exact Or.inr ⟨rfl, rfl⟩
  rw [habs, htr]
  rw [show nf (!isAbsL (u ++ '/' :: c)) (splitSegs (normalizeL u ++ '/' :: c)) =
      nf (!isAbsL (u ++ '/' :: c)) (splitSegs (u ++ '/' :: c)) from by
    unfold nf; rw [hstack]]

/-- Re-dressing a body with the trailing flag read off the dressed result
reproduces the dressed result. -/
theorem dress_redress (ab tr : Bool) (xs : List (List Char))
    (h : ∀ s ∈ xs, s ≠ [] ∧ '/' ∉ s) :
    dress ab (lastIsSlash (dress ab tr (joinSegs xs))) (joinSegs xs) =
      dress ab tr (joinSegs xs) := by
  by_cases hb : joinSegs xs = []
  · rw [hb]
    cases ab
    · rw [lastIsSlash_dress_nil_rel]
    · rfl
  · rw [lastIsSlash_dress _ _ _ h hb]

theorem normalizeL_idem {v : List Char} (hv : v ≠ []) :
    normalizeL (normalizeL v) = normalizeL v := by
  have hw : normalizeL v ≠ [] := by
    rw [normalizeL_eq hv]; exact dress_ne_nil _ _ _
  rw [normalizeL_eq hw]
  rw [isAbsL_normalizeL hv]
  have hstack : runStack (!isAbsL v) [] (splitSegs (normalizeL v)) =
      runStack (!isAbsL v) [] (splitSegs v) := by
    refine runStack_splitSegs_normalizeL hv _ _ ?_
    cases hA : isAbsL v
    · exact Or.inl rfl
    · exact Or.inr ⟨rfl, rfl⟩
  rw [show nf (!isAbsL v) (splitSegs (normalizeL v)) = nf (!isAbsL v) (splitSegs v) from by
    unfold nf; rw [hstack]]
  conv_rhs => rw [normalizeL_eq hv]
  rw [show normalizeL v =
      dress (isAbsL v) (lastIsSlash v) (joinSegs (nf (!isAbsL v) (splitSegs v))) from
    normalizeL_eq hv]
  exact dress_redress _ _ _ nf_splitSegs_ok

/-! ## String-level join lemmas -/

theorem data_ne {s : String} (h : s ≠ "") : s.data ≠ [] := by
  intro hd
  apply h
  cases s with
  | mk l =>
    have hl : l = [] := hd
    subst hl
    rfl

theorem mk_ne_empty {l : List Char} (h : l ≠ []) : (⟨l⟩ : String) ≠ "" :=
  fun he => h (congrArg String.data he)

theorem filter_ne_cons_pos {x : List Char} (h : x ≠ []) (rest : List (List Char)) :
    (x :: rest).filter (fun a => a ≠ []) = x :: rest.filter (fun a => a ≠ []) := by
  rw [List.filter_cons_of_pos]
  simpa using h

theorem filter_ne_cons_nil (rest : List (List Char)) :
    (([] : List Char) :: rest).filter (fun a => a ≠ []) =
      rest.filter (fun a => a ≠ []) := by
  rw [List.filter_cons_of_neg]
  simp

theorem joinL_filter_congr {xs ys : List String}
    (h : (xs.map String.data).filter (fun a => a ≠ []) =
      (ys.map String.data).filter (fun a => a ≠ [])) : joinL xs = joinL ys := by
  unfold joinL
  rw [h]

/-- Dropping an empty trailing argument does not change a join. -/
theorem joinL_pair_empty (a b : String) : joinL [a, b, ""] = joinL [a, b] := by
  apply joinL_filter_congr
  rw [show ([a, b, ""].map String.data) = [a.data, b.data, []] from rfl,
    show ([a, b].map String.data) = [a.data, b.data] from rfl]
  rw [show ([a.data, b.data, []] : List (List Char)) = [a.data, b.data] ++ [[]] from rfl]
  rw [List.filter_append]
  rw [show (([[]] : List (List Char)).filter (fun a => a ≠ [])) = [] from rfl]
  rw [List.append_nil]

/-- Skipping a dot-slash head leaves relative normalization unchanged. -/
theorem core_dot (c : List Char) (hc : c ≠ []) (hcrel : isAbsL c = false) :
    normalizeL ('.' :: '/' :: c) = normalizeL c := by
  have hL : ('.' :: '/' :: c : List Char) ≠ [] := by simp
  rw [normalizeL_eq hL, normalizeL_eq hc]
  have habs : isAbsL ('.' :: '/' :: c) = false := rfl
  have htr : lastIsSlash ('.' :: '/' :: c) = lastIsSlash c := by
    rw [show ('.' :: '/' :: c : List Char) = ['.', '/'] ++ c from rfl]
    exact lastIsSlash_append _ _ hc
  have hstack : runStack (!false) [] (splitSegs ('.' :: '/' :: c)) =
      runStack (!false) [] (splitSegs c) := by
    show runStack true [] (splitChar '/' ('.' :: '/' :: c)) =
      runStack true [] (splitChar '/' c)
    rw [show ('.' :: '/' :: c : List Char) = ['.'] ++ '/' :: c from rfl]
    rw [splitChar_append]
    rw [show splitChar '/' ['.'] = [['.']] from rfl]
    rw [show ([['.']] : List (List Char)) ++ splitChar '/' c =
      ['.'] :: splitChar '/' c from rfl]
    rw [runStack_cons, step_skip (Or.inr rfl)]
  rw [habs, hcrel, htr]
  rw [show nf (!false) (splitSegs ('.' :: '/' :: c)) = nf (!false) (splitSegs c) from by
    unfold nf; rw [hstack]]

/-- The join of three arguments factors through the join of the last two,
provided the middle argument is a non-empty relative path. -/
theorem join_assoc (a b c : String) (hb : b ≠ "") (hbrel : isAbsL b.data = false) :
    joinL [a, b, c] = joinL [a, joinL [b, c]] := by
  have hdb : b.data ≠ [] := data_ne hb
  by_cases hc : c = ""
  · subst hc
    have hnw : normalizeL b.data ≠ [] := by
      rw [normalizeL_eq hdb]; exact dress_ne_nil _ _ _
    have hinner : joinL [b, ""] = ⟨normalizeL b.data⟩ := by
      unfold joinL
      rw [show ([b, ""].map String.data) = [b.data, []] from rfl]
      rw [filter_ne_cons_pos hdb, filter_ne_cons_nil]
      rfl
    rw [hinner]
    by_cases ha : a = ""
    · subst ha
      have hL : joinL ["", b, ""] = ⟨normalizeL b.data⟩ := by
        unfold joinL
        rw [show (["", b, ""].map String.data) = [[], b.data, []] from rfl]
        rw [filter_ne_cons_nil, filter_ne_cons_pos hdb, filter_ne_cons_nil]
        rfl
      have hR : joinL ["", (⟨normalizeL b.data⟩ : String)] =
          ⟨normalizeL (normalizeL b.data)⟩ := by
        unfold joinL
        rw [show ((["", (⟨normalizeL b.data⟩ : String)]).map String.data) =
          [[], normalizeL b.data] from rfl]
        rw [filter_ne_cons_nil, filter_ne_cons_pos hnw]
        rfl
      rw [hL, hR, normalizeL_idem hdb]
    · have hda : a.data ≠ [] := data_ne ha
      have hL : joinL [a, b, ""] = ⟨normalizeL (a.data ++ '/' :: b.data)⟩ := by
        unfold joinL
        rw [show ([a, b, ""].map String.data) = [a.data, b.data, []] from rfl]
        rw [filter_ne_cons_pos hda, filter_ne_cons_pos hdb, filter_ne_cons_nil]
        rfl
      have hR : joinL [a, (⟨normalizeL b.data⟩ : String)] =
          ⟨normalizeL (a.data ++ '/' :: normalizeL b.data)⟩ := by
        unfold joinL
        rw [show (([a, (⟨normalizeL b.data⟩ : String)]).map String.data) =
          [a.data, normalizeL b.data] from rfl]
        rw [filter_ne_cons_pos hda, filter_ne_cons_pos hnw]
        rfl
      rw [hL, hR]
      exact congrArg (fun l => (⟨l⟩ : String))
        (core_right a.data b.data hda hdb hbrel).symm
  · have hdc : c.data ≠ [] := data_ne hc
    have hv : b.data ++ '/' :: c.data ≠ [] := by simp
    have hvrel : isAbsL (b.data ++ '/' :: c.data) = false := by
      rw [isAbsL_append _ _ hdb]; exact hbrel
    have hnw : normalizeL (b.data ++ '/' :: c.data) ≠ [] := by
      rw [normalizeL_eq hv]; exact dress_ne_nil _ _ _
    have hinner : joinL [b, c] = ⟨normalizeL (b.data ++ '/' :: c.data)⟩ := by
      unfold joinL
      rw [show ([b, c].map String.data) = [b.data, c.data] from rfl]
      rw [filter_ne_cons_pos hdb, filter_ne_cons_pos hdc]
      rfl
    rw [hinner]
    by_cases ha : a = ""
    · subst ha
      have hL : joinL ["", b, c] = ⟨normalizeL (b.data ++ '/' :: c.data)⟩ := by
        unfold joinL
        rw [show (["", b, c].map String.data) = [[], b.data, c.data] from rfl]
        rw [filter_ne_cons_nil, filter_ne_cons_pos hdb, filter_ne_cons_pos hdc]
        rfl
      have hR : joinL ["", (⟨normalizeL (b.data ++ '/' :: c.data)⟩ : String)] =
          ⟨normalizeL (normalizeL (b.data ++ '/' :: c.data))⟩ := by
        unfold joinL
        rw [show ((["", (⟨normalizeL (b.data ++ '/' :: c.data)⟩ : String)]).map
          String.data) = [[], normalizeL (b.data ++ '/' :: c.data)] from rfl]
        rw [filter_ne_cons_nil, filter_ne_cons_pos hnw]
        rfl
      rw [hL, hR, normalizeL_idem hv]
    · have hda : a.data ≠ [] := data_ne ha
      have hL : joinL [a, b, c] =
          ⟨normalizeL (a.data ++ '/' :: (b.data ++ '/' :: c.data))⟩ := by
        unfold joinL
        rw [show ([a, b, c].map String.data) = [a.data, b.data, c.data] from rfl]
        rw [filter_ne_cons_pos hda, filter_ne_cons_pos hdb, filter_ne_cons_pos hdc]
        rfl
      have hR : joinL [a, (⟨normalizeL (b.data ++ '/' :: c.data)⟩ : String)] =
          ⟨normalizeL (a.data ++ '/' :: normalizeL (b.data ++ '/' :: c.data))⟩ := by
        unfold joinL
        rw [show (([a, (⟨normalizeL (b.data ++ '/' :: c.data)⟩ : String)]).map
          String.data) = [a.data, normalizeL (b.data ++ '/' :: c.data)] from rfl]
        rw [filter_ne_cons_pos hda, filter_ne_cons_pos hnw]
        rfl
      rw [hL, hR]
      exact congrArg (fun l => (⟨l⟩ : String))
        (core_right a.data _ hda hv hvrel).symm

/-- Left-nested joining agrees with flat joining, provided the appended
argument is a non-empty relative path. -/
theorem join_left (a b c : String) (hc : c ≠ "") (hcrel : isAbsL c.data = false) :
    joinL [joinL [a, b], c] = joinL [a, b, c] := by
  have hdc : c.data ≠ [] := data_ne hc
  by_cases ha : a = ""
  · subst ha
    by_cases hb : b = ""
    · subst hb
      have h0 : joinL [("" : String), ""] = "." := by
        unfold joinL
        rw [show (([("" : String), ""]).map String.data) = [[], ([] : List Char)] from rfl]
        rw [filter_ne_cons_nil, filter_ne_cons_nil]
        rfl
      rw [h0]
      have hL : joinL [("." : String), c] = ⟨normalizeL ('.' :: '/' :: c.data)⟩ := by
        unfold joinL
        rw [show (([("." : String), c]).map String.data) = [['.'], c.data] from rfl]
        rw [filter_ne_cons_pos (by simp : (['.'] : List Char) ≠ []),
          filter_ne_cons_pos hdc]
        rfl
      have hR : joinL [("" : String), "", c] = ⟨normalizeL c.data⟩ := by
        unfold joinL
        rw [show ((["", "", c] : List String).map String.data) = [[], [], c.data] from rfl]
        rw [filter_ne_cons_nil, filter_ne_cons_nil, filter_ne_cons_pos hdc]
        rfl
      rw [hL, hR]
      exact congrArg (fun l => (⟨l⟩ : String)) (core_dot c.data hdc hcrel)
    · have hdb : b.data ≠ [] := data_ne hb
      have hnw : normalizeL b.data ≠ [] := by
        rw [normalizeL_eq hdb]; exact dress_ne_nil _ _ _
      have hub : joinL [("" : String), b] = ⟨normalizeL b.data⟩ := by
        unfold joinL
        rw [show (([("" : String), b]).map String.data) = [[], b.data] from rfl]
        rw [filter_ne_cons_nil, filter_ne_cons_pos hdb]
        rfl
      rw [hub]
      have hL : joinL [(⟨normalizeL b.data⟩ : String), c] =
          ⟨normalizeL (normalizeL b.data ++ '/' :: c.data)⟩ := by
        unfold joinL
        rw [show (([(⟨normalizeL b.data⟩ : String), c]).map String.data) =
          [normalizeL b.data, c.data] from rfl]
        rw [filter_ne_cons_pos hnw, filter_ne_cons_pos hdc]
        rfl
      have hR : joinL [("" : String), b, c] =
          ⟨normalizeL (b.data ++ '/' :: c.data)⟩ := by
        unfold joinL
        rw [show ((["", b, c] : List String).map String.data) =
          [[], b.data, c.data] from rfl]
        rw [filter_ne_cons_nil, filter_ne_cons_pos hdb, filter_ne_cons_pos hdc]
        rfl
      rw [hL, hR]
      exact congrArg (fun l => (⟨l⟩ : String)) (core_left b.data c.data hdb)
  · have hda : a.data ≠ [] := data_ne ha
    by_cases hb : b = ""
    · subst hb
      have hnw : normalizeL a.data ≠ [] := by
        rw [normalizeL_eq hda]; exact dress_ne_nil _ _ _
      have hua : joinL [a, ""] = ⟨normalizeL a.data⟩ := by
        unfold joinL
        rw [show (([a, ""]).map String.data) = [a.data, ([] : List Char)] from rfl]
        rw [filter_ne_cons_pos hda, filter_ne_cons_nil]
        rfl
      rw [hua]
      have hL : joinL [(⟨normalizeL a.data⟩ : String), c] =
          ⟨normalizeL (normalizeL a.data ++ '/' :: c.data)⟩ := by
        unfold joinL
        rw [show (([(⟨normalizeL a.data⟩ : String), c]).map String.data) =
          [normalizeL a.data, c.data] from rfl]
        rw [filter_ne_cons_pos hnw, filter_ne_cons_pos hdc]
        rfl
      have hR : joinL [a, "", c] = ⟨normalizeL (a.data ++ '/' :: c.data)⟩ := by
        unfold joinL
        rw [show (([a, "", c] : List String).map String.data) =
          [a.data, [], c.data] from rfl]
        rw [filter_ne_cons_pos hda, filter_ne_cons_nil, filter_ne_cons_pos hdc]
        rfl
      rw [hL, hR]
      exact congrArg (fun l => (⟨l⟩ : String)) (core_left a.data c.data hda)
    · have hdb : b.data ≠ [] := data_ne hb
      have hu : a.data ++ '/' :: b.data ≠ [] := by simp
      have hnw : normalizeL (a.data ++ '/' :: b.data) ≠ [] := by
        rw [normalizeL_eq hu]; exact dress_ne_nil _ _ _
      have hj : joinL [a, b] = ⟨normalizeL (a.data ++ '/' :: b.data)⟩ := by
        unfold joinL
        rw [show (([a, b]).map String.data) = [a.data, b.data] from rfl]
        rw [filter_ne_cons_pos hda, filter_ne_cons_pos hdb]
        rfl
      rw [hj]
      have hL : joinL [(⟨normalizeL (a.data ++ '/' :: b.data)⟩ : String), c] =
          ⟨normalizeL (normalizeL (a.data ++ '/' :: b.data) ++ '/' :: c.data)⟩ := by
        unfold joinL
        rw [show (([(⟨normalizeL (a.data ++ '/' :: b.data)⟩ : String), c]).map
          String.data) = [normalizeL (a.data ++ '/' :: b.data), c.data] from rfl]
        rw [filter_ne_cons_pos hnw, filter_ne_cons_pos hdc]
        rfl
      have hR : joinL [a, b, c] =
          ⟨normalizeL (a.data ++ '/' :: (b.data ++ '/' :: c.data))⟩ := by
        unfold joinL
        rw [show (([a, b, c]).map String.data) = [a.data, b.data, c.data] from rfl]
        rw [filter_ne_cons_pos hda, filter_ne_cons_pos hdb, filter_ne_cons_pos hdc]
        rfl
      rw [hL, hR]
      have hcore := core_left (a.data ++ '/' :: b.data) c.data hu
      rw [show (a.data ++ '/' :: b.data) ++ '/' :: c.data =
          a.data ++ '/' :: (b.data ++ '/' :: c.data) from by simp] at hcore
      exact congrArg (fun l => (⟨l⟩ : String)) hcore

/-! ## JS object and registry operation lemmas -/

theorem contains_of_mem {l : List String} {k : String} (h : k ∈ l) :
    l.contains k = true := by
  simpa using h

theorem contains_eq_false {l : List String} {k : String} (h : k ∉ l) :
    l.contains k = false := by
  simpa using h

theorem assert_ok_of_mem {layers : Layers} {k : String} (h : k ∈ jsKeysG layers) :
    assertLayerKey layers k = Except.ok () := by
  unfold assertLayerKey
  rw [contains_of_mem h]
  rfl

theorem assert_error_of_not_mem {layers : Layers} {k : String}
    (h : k ∉ jsKeysG layers) : assertLayerKey layers k = Except.error (errMsg k) := by
  unfold assertLayerKey
  rw [contains_eq_false h]
  rfl

theorem rel_ok {r : Registry} {k : String} (folder : String)
    (h : k ∈ jsKeysG r.layers) :
    r.rel k folder = Except.ok (joinL [jsGetD r.layers k, folder]) := by
  unfold Registry.rel
  rw [assert_ok_of_mem h]
  rfl

theorem abs_ok {r : Registry} {k : String} (folder : String)
    (h : k ∈ jsKeysG r.layers) :
    r.abs k folder = Except.ok (joinL [r.baseDir, jsGetD r.layers k, folder]) := by
  unfold Registry.abs
  rw [assert_ok_of_mem h]
  rfl

theorem forM_assert_ok {layers : Layers} :
    ∀ {ks : List String}, (∀ k ∈ ks, k ∈ jsKeysG layers) →
      ks.forM (assertLayerKey layers) = Except.ok () := by
  intro ks
  induction ks with
  | nil => intro _; rfl
  | cons k ks ih =>
    intro h
    show (assertLayerKey layers k >>= fun _ => ks.forM (assertLayerKey layers)) =
      Except.ok ()
    rw [assert_ok_of_mem (h k (List.mem_cons_self k ks))]
    exact ih (fun k' hk' => h k' (List.mem_cons_of_mem k hk'))

theorem jsKeysG_append {β : Type} (m m' : JsObj β) :
    jsKeysG (m ++ m') = jsKeysG m ++ jsKeysG m' := by
  unfold jsKeysG
  exact List.map_append _ m m'

theorem jsInsertG_fresh {β : Type} {m : JsObj β} {k : String} (v : β)
    (h : k ∉ jsKeysG m) : jsInsertG m k v = m ++ [(k, v)] := by
  unfold jsInsertG
  rw [contains_eq_false h]
  rfl

theorem jsGetD_head (k v : String) (rest : Layers) :
    jsGetD ((k, v) :: rest) k = v := by
  unfold jsGetD jsGet
  rw [List.find?_cons_of_pos _ (by simp)]
  rfl

theorem mem_keys_of_jsGet {m : Layers} {k v : String} (h : jsGet m k = some v) :
    k ∈ jsKeysG m := by
  unfold jsGet at h
  cases hf : m.find? (fun p => p.1 == k) with
  | none => rw [hf] at h; exact absurd h (by simp)
  | some x =>
    have hx : x ∈ m := List.mem_of_find?_eq_some hf
    have hk := List.find?_some hf
    have : x.1 = k := by simpa using hk
    rw [← this]
    exact List.mem_map_of_mem Prod.fst hx

theorem jsGetD_of_jsGet {m : Layers} {k v : String} (h : jsGet m k = some v) :
    jsGetD m k = v := by
  unfold jsGetD
  rw [h]
  rfl

theorem append_left_injective (p : String) : Function.Injective (fun s => p ++ s) := by
  intro a b h
  have h2 := congrArg String.data h
  rw [String.data_append, String.data_append] at h2
  exact String.ext (List.append_cancel_left h2)

/-- A monadic fold that inserts one fresh key per element appends the
mapped entries in order. -/
theorem foldlM_insert_ok {β γ : Type} (stepf : JsObj β → γ → Except String (JsObj β))
    (keyf : γ → String) (vf : γ → β) :
    ∀ (xs : List γ) (acc : JsObj β),
      (∀ out x, x ∈ xs → stepf out x = Except.ok (jsInsertG out (keyf x) (vf x))) →
      (xs.map keyf).Nodup →
      (∀ x ∈ xs, keyf x ∉ jsKeysG acc) →
      xs.foldlM stepf acc = Except.ok (acc ++ xs.map (fun x => (keyf x, vf x))) := by
  intro xs
  induction xs with
  | nil =>
    intro acc _ _ _
    simp only [List.map_nil, List.append_nil]
    rfl
  | cons x xs ih =>
    intro acc hstep hnd hfresh
    show (stepf acc x >>= fun a => xs.foldlM stepf a) = _
    rw [hstep acc x (List.mem_cons_self x xs)]
    rw [jsInsertG_fresh _ (hfresh x (List.mem_cons_self x xs))]
    show xs.foldlM stepf (acc ++ [(keyf x, vf x)]) = _
    rw [ih (acc ++ [(keyf x, vf x)])
      (fun out y hy => hstep out y (List.mem_cons_of_mem x hy))
      (List.Nodup.of_cons (by simpa using hnd))
      (fun y hy => by
        rw [jsKeysG_append]
        intro hmem
        rcases List.mem_append.mp hmem with hmem | hmem
        · exact hfresh y (List.mem_cons_of_mem x hy) hmem
        · have hxy : keyf y = keyf x := by simpa [jsKeysG] using hmem
          have : keyf x ∉ xs.map keyf := (List.nodup_cons.mp (by simpa using hnd)).1
          exact this (hxy ▸ List.mem_map_of_mem keyf hy))]
    simp

/-- The pure fold used by `only` appends the filtered entries in order. -/
theorem foldl_insert_ok {β : Type} (g : String → β) :
    ∀ (ks : List String) (acc : JsObj β), ks.Nodup →
      (∀ k ∈ ks, k ∉ jsKeysG acc) →
      ks.foldl (fun m k => jsInsertG m k (g k)) acc =
        acc ++ ks.map (fun k => (k, g k)) := by
  intro ks
  induction ks with
  | nil =>
    intro acc _ _
    simp only [List.map_nil, List.append_nil]
    rfl
  | cons k ks ih =>
    intro acc hnd hfresh
    show ks.foldl (fun m k => jsInsertG m k (g k))
      (jsInsertG acc k (g k)) = _
    rw [jsInsertG_fresh _ (hfresh k (List.mem_cons_self k ks))]
    rw [ih (acc ++ [(k, g k)]) (List.Nodup.of_cons hnd)
      (fun y hy => by
        rw [jsKeysG_append]
        intro hmem
        rcases List.mem_append.mp hmem with hmem | hmem
        · exact hfresh y (List.mem_cons_of_mem k hy) hmem
        · have hxy : y = k := by simpa [jsKeysG] using hmem
          exact (List.nodup_cons.mp hnd).1 (hxy ▸ hy))]
    simp

/-- The loop of `arr` specialised to the callback of `importsDirs`. -/
theorem arrAux_importsDirs (r : Registry) (folders : List String) :
    ∀ (entries : List (String × String)) (i : Nat),
      (∀ e ∈ entries, e.1 ∈ jsKeysG r.layers) →
      r.arrAux (fun _ rel _ _ => folders.map (fun folder => joinL [rel, folder]))
        entries i =
        Except.ok (entries.map (fun kv => folders.map (fun f => joinL [kv.2, f]))) := by
  intro entries
  induction entries with
  | nil => intro i _; rfl
  | cons e rest ih =>
    intro i h
    obtain ⟨k, v⟩ := e
    show (r.abs k >>= fun _ =>
      (r.arrAux _ rest (i + 1) >>= fun xs => Except.ok (_ :: xs))) = _
    rw [abs_ok "" (h (k, v) (List.mem_cons_self _ _))]
    show (r.arrAux _ rest (i + 1) >>= fun xs => Except.ok (_ :: xs)) = _
    rw [ih (i + 1) (fun e he => h e (List.mem_cons_of_mem _ he))]
    rfl

/-- The loop of `obj`: with pairwise distinct valid keys it assigns one
fresh entry per key, in iteration order and with a running index. -/
theorem objAux_ok {β : Type} (r : Registry) (cb : String → String → String → Nat → β) :
    ∀ (ks : List String) (i : Nat) (out : JsObj β),
      (∀ k ∈ ks, k ∈ jsKeysG r.layers) → ks.Nodup →
      (∀ k ∈ ks, k ∉ jsKeysG out) →
      r.objAux cb ks i out = Except.ok (out ++ (idxFrom i ks).map (fun p =>
        (p.2, cb p.2 (jsGetD r.layers p.2)
          (joinL [r.baseDir, jsGetD r.layers p.2, ""]) p.1))) := by
  intro ks
  induction ks with
  | nil =>
    intro i out _ _ _
    show Except.ok out = _
    simp [idxFrom]
  | cons k ks ih =>
    intro i out hmem hnd hfresh
    show (r.abs k >>= fun a =>
      r.objAux cb ks (i + 1) (jsInsertG out k (cb k (jsGetD r.layers k) a i))) = _
    rw [abs_ok "" (hmem k (List.mem_cons_self k ks))]
    show r.objAux cb ks (i + 1) (jsInsertG out k _) = _
    rw [jsInsertG_fresh _ (hfresh k (List.mem_cons_self k ks))]
    rw [ih (i + 1) _ (fun y hy => hmem y (List.mem_cons_of_mem k hy))
      (List.Nodup.of_cons hnd)
      (fun y hy => by
        rw [jsKeysG_append]
        intro hmemy
        rcases List.mem_append.mp hmemy with hmemy | hmemy
        · exact hfresh y (List.mem_cons_of_mem k hy) hmemy
        · have hyk : y = k := by simpa [jsKeysG] using hmemy
          exact (List.nodup_cons.mp hnd).1 (hyk ▸ hy))]
    rw [show idxFrom i (k :: ks) = (i, k) :: idxFrom (i + 1) ks from rfl]
    simp

/-- The absolute path of a layer folder factors as a flat three-way join:
nesting the default-folder absolute path under a further folder equals
joining base directory, layer path and folder at once. -/
theorem abs_content (a v folder : String) (hf : folder ≠ "")
    (hfrel : isAbsL folder.data = false) :
    joinL [joinL [a, v, ""], folder] = joinL [a, v, folder] := by
  rw [joinL_pair_empty]
  exact join_left a v folder hf hfrel

/-! ## Claims -/

/-- C2: for every key absent from the current mapping, each key-taking
operation (rel, abs, dir, dirPath, only) fails synchronously with the
invalid-layer error naming the offending key, and produces no output
(in the pure embedding the failing call returns only the error value and
the registry value is untouched by construction). -/
theorem c2_invalid_key (r : Registry) (k folder : String)
    (ofolder : Option String) (folders : List String)
    (hk : k ∉ jsKeysG r.layers) :
    r.rel k folder = Except.error (errMsg k) ∧
    r.abs k folder = Except.error (errMsg k) ∧
    r.dir k folders = Except.error (errMsg k) ∧
    r.dirPath k ofolder = Except.error (errMsg k) ∧
    r.only (Filter.list [k]) = Except.error (errMsg k) ∧
    errMsg k = "Invalid layer \"" ++ k ++ "\"" := by
  have he := assert_error_of_not_mem hk
  refine ⟨?_, ?_, ?_, ?_, ?_, rfl⟩
  · unfold Registry.rel
    rw [he]
    rfl
  · unfold Registry.abs
    rw [he]
    rfl
  · unfold Registry.dir
    rw [he]
    rfl
  · unfold Registry.dirPath
    rw [he]
    rfl
  · unfold Registry.only
    show ((getKeys (Filter.list [k])).forM (assertLayerKey r.layers) >>=
      fun _ => _) = _
    show ((assertLayerKey r.layers k >>= fun _ => Except.ok ()) >>= fun _ => _) = _
    rw [he]
    rfl

theorem c2_invalid_key_witness :
    ("nope" ∉ jsKeysG ([("core", "core")] : Layers)) ∧
    Registry.rel ⟨"/p", [("core", "core")]⟩ "nope" "" =
      Except.error (errMsg "nope") :=
  ⟨by decide,
    (c2_invalid_key ⟨"/p", [("core", "core")]⟩ "nope" "" none [] (by decide)).1⟩

/-- C7: for every registry with a non-empty mapping, `extends` returns
exactly the mapping values, unchanged and in insertion order. -/
theorem c7_extends (r : Registry) (_h : r.layers ≠ []) :
    r.extendsList = r.layers.map Prod.snd ∧
    r.extendsList.length = r.layers.length := by
  refine ⟨rfl, ?_⟩
  unfold Registry.extendsList
  exact List.length_map r.layers Prod.snd

theorem c7_extends_witness :
    Registry.extendsList ⟨"/p", [("core", "core"), ("blog", "layers/blog")]⟩ =
      [("core", "core"), ("blog", "layers/blog")].map Prod.snd :=
  (c7_extends ⟨"/p", [("core", "core"), ("blog", "layers/blog")]⟩ (by simp)).1

/-- C8: a successful `only` call returns an instance carrying the same
base directory; the original registry is a value in the pure embedding and
is never modified (the new mapping is built from scratch by the fold). -/
theorem c8_only_same_base (r : Registry) (f : Filter) (r' : Registry)
    (h : r.only f = Except.ok r') : r'.baseDir = r.baseDir := by
  simp only [Registry.only] at h
  cases hfm : (getKeys f).forM (assertLayerKey r.layers) with
  | error e =>
    rw [hfm] at h
    rw [show ∀ g : PUnit → Except String Registry,
      ((Except.error e : Except String PUnit) >>= g) = Except.error e from
      fun g => rfl] at h
    exact Except.noConfusion h
  | ok u =>
    rw [hfm] at h
    rw [show ∀ g : PUnit → Except String Registry,
      ((Except.ok u : Except String PUnit) >>= g) = g u from fun g => rfl] at h
    have h2 := Except.ok.inj h
    rw [← h2]

theorem c8_only_same_base_witness :
    Registry.baseDir ⟨"/p", [("core", "core")]⟩ = "/p" :=
  c8_only_same_base ⟨"/p", [("core", "core"), ("blog", "layers/blog")]⟩
    (Filter.list ["core"]) ⟨"/p", [("core", "core")]⟩ (by rfl)

/-- C9: the diagnostic helper `logConfig` returns its argument unchanged,
so splicing it into an expression never alters the produced value. -/
theorem c9_logConfig_id {α : Type} (v : α) : logConfig v = v := rfl

/-- C10: calling `only` with a whitespace-only string filter fails with the
invalid-key error naming the empty-string key, because trimming and
splitting such a string yields the single key of the empty string, which is
absent from any mapping whose keys are non-empty identifiers. -/
theorem c10_only_blank (r : Registry) (s : String)
    (hs : jsTrim s.data = []) (h0 : "" ∉ jsKeysG r.layers) :
    r.only (Filter.str s) = Except.error (errMsg "") := by
  unfold Registry.only
  have hkeys : getKeys (Filter.str s) = [""] := by
    show (jsSplitWs (jsTrim s.data)).map (fun l => (⟨l⟩ : String)) = [""]
    rw [hs]
    rfl
  rw [hkeys]
  show ((assertLayerKey r.layers "" >>= fun _ => Except.ok ()) >>= fun _ => _) = _
  rw [assert_error_of_not_mem h0]
  rfl

theorem c10_only_blank_witness :
    jsTrim ("   " : String).data = [] ∧
    Registry.only ⟨"/p", [("core", "core")]⟩ (Filter.str "   ") =
      Except.error (errMsg "") :=
  ⟨by decide, c10_only_blank ⟨"/p", [("core", "core")]⟩ "   " (by decide) (by decide)⟩

/-- C1: for every registry and every filter whose keys are all present
(and pairwise distinct, as keys of a filter), `only` returns a new
registry over the same base directory whose mapping holds exactly the
filtered keys in filter order, so a subsequent `extends` yields exactly
the relative paths of the filtered keys in filter order, regardless of the
original mapping order. -/
theorem c1_only_extends (r : Registry) (f : Filter) (ks : List String)
    (hks : getKeys f = ks) (hnd : ks.Nodup)
    (hmem : ∀ k ∈ ks, k ∈ jsKeysG r.layers) :
    r.only f = Except.ok
      (Registry.mk r.baseDir (ks.map (fun k => (k, jsGetD r.layers k)))) ∧
    ∀ r', r.only f = Except.ok r' → jsKeysG r'.layers = ks ∧
      r'.extendsList = ks.map (fun k => jsGetD r.layers k) := by
  have h1 : r.only f = Except.ok
      (Registry.mk r.baseDir (ks.map (fun k => (k, jsGetD r.layers k)))) := by
    simp only [Registry.only]
    rw [hks]
    rw [forM_assert_ok hmem]
    rw [show ∀ g : PUnit → Except String Registry,
      ((Except.ok () : Except String PUnit) >>= g) = g () from fun g => rfl]
    rw [foldl_insert_ok (fun k => jsGetD r.layers k) ks [] hnd
      (fun k _ => by simp [jsKeysG])]
    rw [List.nil_append]
    rfl
  refine ⟨h1, ?_⟩
  intro r' h'
  rw [h1] at h'
  have h2 := Except.ok.inj h'
  rw [← h2]
  constructor
  · show ((ks.map (fun k => (k, jsGetD r.layers k))).map Prod.fst) = ks
    rw [List.map_map]
    exact List.map_id ks
  · show ((ks.map (fun k => (k, jsGetD r.layers k))).map Prod.snd) = _
    rw [List.map_map]
    rfl

theorem c1_only_extends_witness :
    getKeys (Filter.str " site  blog ") = ["site", "blog"] ∧
    Registry.only
      ⟨"/p", [("core", "core"), ("blog", "layers/blog"), ("site", "layers/site")]⟩
      (Filter.str " site  blog ") =
      Except.ok ⟨"/p", [("site", "layers/site"), ("blog", "layers/blog")]⟩ :=
  ⟨by decide,
    (c1_only_extends
      ⟨"/p", [("core", "core"), ("blog", "layers/blog"), ("site", "layers/site")]⟩
      (Filter.str " site  blog ") ["site", "blog"]
      (by decide) (by decide) (by decide)).1⟩

/-- C5 as stated is false: with a base directory carrying a trailing slash
and a layer whose relative path is the empty string, `abs` returns the
normalized base directory with its trailing slash kept, while joining the
base directory with the relative path (a dot) drops the trailing slash. -/
theorem c5_claim_counterexample :
    Registry.abs ⟨"/x/", [("a", "")]⟩ "a" = Except.ok "/x/" ∧
    Registry.rel ⟨"/x/", [("a", "")]⟩ "a" = Except.ok "." ∧
    joinL ["/x/", "."] = "/x" ∧
    Registry.abs ⟨"/x/", [("a", "")]⟩ "a" ≠ Except.ok (joinL ["/x/", "."]) := by
  refine ⟨rfl, rfl, rfl, ?_⟩
  intro h
  have h2 := Except.ok.inj h
  exact absurd h2 (by decide)

/-- C5 (amended): for every registry, key and folder, provided the layer
relative path at the key is a non-empty relative path (it does not start
with a slash), the absolute-path derivation factors through the
relative-path derivation under join:
abs(key, folder) = join(baseDir, rel(key, folder)). -/
theorem c5_abs_factors (r : Registry) (k folder v : String)
    (hv : jsGet r.layers k = some v) (hvne : v ≠ "")
    (hvrel : isAbsL v.data = false) :
    r.rel k folder = Except.ok (joinL [v, folder]) ∧
    r.abs k folder = Except.ok (joinL [r.baseDir, v, folder]) ∧
    joinL [r.baseDir, v, folder] = joinL [r.baseDir, joinL [v, folder]] := by
  have hmem : k ∈ jsKeysG r.layers := mem_keys_of_jsGet hv
  have hget : jsGetD r.layers k = v := jsGetD_of_jsGet hv
  refine ⟨?_, ?_, ?_⟩
  · rw [rel_ok folder hmem, hget]
  · rw [abs_ok folder hmem, hget]
  · exact join_assoc r.baseDir v folder hvne hvrel

theorem c5_abs_factors_witness :
    jsGet ([("core", "core"), ("blog", "layers/blog")] : Layers) "blog" =
      some "layers/blog" ∧
    Registry.abs ⟨"/projects/project", [("core", "core"), ("blog", "layers/blog")]⟩
      "blog" "assets" = Except.ok "/projects/project/layers/blog/assets" ∧
    joinL ["/projects/project", "layers/blog", "assets"] =
      joinL ["/projects/project", joinL ["layers/blog", "assets"]] := by
  refine ⟨by rfl, by rfl, ?_⟩
  exact (c5_abs_factors
    ⟨"/projects/project", [("core", "core"), ("blog", "layers/blog")]⟩
    "blog" "assets" "layers/blog" (by rfl) (by decide) (by rfl)).2.2

/-- C6: `importsDirs` returns the flattened cross product in layer-major
order: for each layer in insertion order, for each requested folder in
the given order, the folder joined onto the layer relative path; an
omitted folder list defaults to components, composables, utils. -/
theorem c6_importsDirs (r : Registry) (folders : List String) :
    r.importsDirs folders = Except.ok (r.layers.flatMap (fun kv =>
      folders.map (fun folder => joinL [kv.2, folder]))) ∧
    r.importsDirs = Except.ok (r.layers.flatMap (fun kv =>
      ["components", "composables", "utils"].map
        (fun folder => joinL [kv.2, folder]))) := by
  have hgen : ∀ fs : List String, r.importsDirs fs =
      Except.ok (r.layers.flatMap (fun kv =>
        fs.map (fun folder => joinL [kv.2, folder]))) := by
    intro fs
    unfold Registry.importsDirs Registry.arr
    rw [arrAux_importsDirs r fs r.layers 0
      (fun e he => List.mem_map_of_mem Prod.fst he)]
    rfl
  exact ⟨hgen folders, hgen AUTO_IMPORTS⟩

theorem abs_content_fixed (a v : String) :
    joinL [joinL [a, v, ""], "content"] = joinL [a, v, "content"] :=
  abs_content a v "content" (by decide) (by rfl)

/-- C3: `contentSources` maps each layer key, in current iteration order
with its index, to a source whose base is the absolute path of the layer
content folder and whose driver is fs; the prefix field is omitted for the
layer at index zero under the auto option and always under false, taken
from the mapping object under an object option, and the slash-prefixed key
otherwise. -/
theorem c3_contentSources (r : Registry) (pfx : ContentPrefix)
    (hnd : (jsKeysG r.layers).Nodup) :
    r.contentSources pfx = Except.ok ((idxFrom 0 (jsKeysG r.layers)).map (fun p =>
      (p.2, ContentSource.mk
        (if (pfx = ContentPrefix.auto ∧ p.1 = 0) ∨
            pfx = ContentPrefix.bool false then none
          else
            match pfx with
            | ContentPrefix.obj m => some ("/" ++ jsGetD m p.2)
            | _ => some ("/" ++ p.2))
        (joinL [r.baseDir, jsGetD r.layers p.2, "content"])
        "fs"))) := by
  unfold Registry.contentSources Registry.obj
  rw [objAux_ok r _ (jsKeysG r.layers) 0 [] (fun k hk => hk) hnd
    (fun k _ => by simp [jsKeysG])]
  rw [List.nil_append]
  refine congrArg Except.ok ?_
  apply List.map_congr_left
  intro p _
  simp only [abs_content_fixed]
  rfl

theorem c3_contentSources_witness :
    ((jsKeysG ([("site", "layers/site"), ("blog", "layers/blog")] : Layers)).Nodup) ∧
    Registry.contentSources
      ⟨"/p", [("site", "layers/site"), ("blog", "layers/blog")]⟩ .auto =
      Except.ok
        [("site", ContentSource.mk none "/p/layers/site/content" "fs"),
          ("blog", ContentSource.mk (some "/blog") "/p/layers/blog/content" "fs")] :=
  ⟨by decide,
    (c3_contentSources ⟨"/p", [("site", "layers/site"), ("blog", "layers/blog")]⟩
      .auto (by decide)).trans (by rfl)⟩

/-- C4: with a non-empty mapping, `alias` with no folders argument returns
one entry per layer in insertion order, the prefixed key mapped to the
absolute layer path; with folders supplied (an explicit list, or the
literal true meaning the default auto-import set) it uses only the first
layer in insertion order, returning each prefixed folder mapped to the
absolute path of that folder under the first layer. -/
theorem c4_alias (r : Registry) (p k0 v0 : String) (rest : Layers)
    (fs : List String) (hnd : (jsKeysG r.layers).Nodup)
    (hlay : r.layers = (k0, v0) :: rest) (hk0 : k0 ≠ "") (hfs : fs.Nodup) :
    r.alias p none = Except.ok ((jsKeysG r.layers).map (fun k =>
      (p ++ k, joinL [r.baseDir, jsGetD r.layers k, ""]))) ∧
    r.alias p (some (AliasFolders.names fs)) = Except.ok (fs.map (fun folder =>
      (p ++ folder, joinL [r.baseDir, v0, folder]))) ∧
    r.alias p (some AliasFolders.star) = Except.ok
      (["components", "composables", "utils"].map (fun folder =>
        (p ++ folder, joinL [r.baseDir, v0, folder]))) := by
  have hk0mem : k0 ∈ jsKeysG r.layers := by
    rw [hlay]
    show k0 ∈ k0 :: jsKeysG rest
    exact List.mem_cons_self _ _
  have hv0 : jsGetD r.layers k0 = v0 := by
    rw [hlay]
    exact jsGetD_head k0 v0 rest
  have hfold : ∀ gs : List String, gs.Nodup →
      gs.foldlM (fun out folder => do
        let a ← r.abs k0 folder
        pure (jsInsertG out (p ++ folder) a)) [] =
      Except.ok (gs.map (fun folder =>
        (p ++ folder, joinL [r.baseDir, v0, folder]))) := by
    intro gs hgs
    have := foldlM_insert_ok
      (fun out folder => do
        let a ← r.abs k0 folder
        pure (jsInsertG out (p ++ folder) a))
      (fun folder => p ++ folder)
      (fun folder => joinL [r.baseDir, v0, folder]) gs []
      (fun out folder _ => by
        show (do
          let a ← r.abs k0 folder
          pure (jsInsertG out (p ++ folder) a)) =
          Except.ok (jsInsertG out (p ++ folder) (joinL [r.baseDir, v0, folder]))
        rw [show r.abs k0 folder = Except.ok (joinL [r.baseDir, v0, folder]) from by
          rw [abs_ok folder hk0mem, hv0]]
        rfl)
      (List.Nodup.map (append_left_injective p) hgs)
      (fun folder _ => by simp [jsKeysG])
    rw [List.nil_append] at this
    exact this
  refine ⟨?_, ?_, ?_⟩
  · have := foldlM_insert_ok
      (fun out k => do
        let a ← r.abs k
        pure (jsInsertG out (p ++ k) a))
      (fun k => p ++ k)
      (fun k => joinL [r.baseDir, jsGetD r.layers k, ""])
      (jsKeysG r.layers) []
      (fun out k hk => by
        show (do
          let a ← r.abs k
          pure (jsInsertG out (p ++ k) a)) =
          Except.ok (jsInsertG out (p ++ k) (joinL [r.baseDir, jsGetD r.layers k, ""]))
        rw [show r.abs k = Except.ok (joinL [r.baseDir, jsGetD r.layers k, ""]) from
          abs_ok "" hk]
        rfl)
      (List.Nodup.map (append_left_injective p) hnd)
      (fun k _ => by simp [jsKeysG])
    rw [List.nil_append] at this
    exact this
  · show (match jsKeysG r.layers with
      | [] => Except.ok []
      | k1 :: _ =>
        if k1 = "" then Except.ok []
        else fs.foldlM (fun out folder => do
          let a ← r.abs k1 folder
          pure (jsInsertG out (p ++ folder) a)) []) = _
    rw [hlay]
    show (if k0 = "" then Except.ok [] else fs.foldlM (fun out folder => do
      let a ← r.abs k0 folder
      pure (jsInsertG out (p ++ folder) a)) []) = _
    rw [if_neg hk0]
    exact hfold fs hfs
  · show (match jsKeysG r.layers with
      | [] => Except.ok []
      | k1 :: _ =>
        if k1 = "" then Except.ok []
        else AUTO_IMPORTS.foldlM (fun out folder => do
          let a ← r.abs k1 folder
          pure (jsInsertG out (p ++ folder) a)) []) = _
    rw [hlay]
    show (if k0 = "" then Except.ok [] else AUTO_IMPORTS.foldlM (fun out folder => do
      let a ← r.abs k0 folder
      pure (jsInsertG out (p ++ folder) a)) []) = _
    rw [if_neg hk0]
    exact hfold AUTO_IMPORTS (by decide)

theorem c4_alias_witness :
    Registry.alias ⟨"/p", [("core", "core"), ("blog", "layers/blog")]⟩ "#" none =
      Except.ok [("#core", "/p/core"), ("#blog", "/p/layers/blog")] ∧
    Registry.alias ⟨"/p", [("core", "core"), ("blog", "layers/blog")]⟩ "~/"
      (some (AliasFolders.names ["components", "utils"])) =
      Except.ok [("~/components", "/p/core/components"),
        ("~/utils", "/p/core/utils")] := by
  have h := c4_alias ⟨"/p", [("core", "core"), ("blog", "layers/blog")]⟩ "#"
    "core" "core" [("blog", "layers/blog")] [] (by decide) rfl (by decide) (by decide)
  have h2 := c4_alias ⟨"/p", [("core", "core"), ("blog", "layers/blog")]⟩ "~/"
    "core" "core" [("blog", "layers/blog")] ["components", "utils"]
    (by decide) rfl (by decide) (by decide)
  exact ⟨h.1.trans (by rfl), h2.2.1.trans (by rfl)⟩

end NuxtLayers
